import Mathlib

/-!
Verification development for the MiniOS kernel core.

This file gives a shallow embedding, in Lean 4, of the parts of the MiniOS
sources that the checked properties are about:

* the kernel heap allocator (`src/boot/heap.c`),
* the physical frame allocator (`pmm.c`),
* the virtio-net driver's TX/RX queue operations (`src/drivers/virtio_net.c`),
* the PS/2 keyboard interrupt handler (`keyboard.c`).

Machine integers (`size_t`, pointers) are modelled as `Nat` with explicit
reduction modulo `2^64` exactly where the C performs 64-bit arithmetic.
The heap's linked list of block headers is modelled as a `List` of blocks;
block addresses are derived from the heap base and the prefix sums of
`header + size`, which coincides with the pointer arithmetic of the source
(every operation of the source preserves the property that the successor
block starts `HEADER_SIZE + size` bytes after its predecessor).
`kfree` on a pointer that does not match any block's payload address is
modelled as a no-op (the C behaviour on such pointers is undefined memory
interpretation and is not representable in a shallow embedding).
-/

set_option maxRecDepth 4000

namespace MiniOS

/-- 2^64, the modulus of `size_t` / pointer arithmetic on x86_64. -/
def U64 : Nat := 18446744073709551616

/-- 64-bit unsigned subtraction `a - b` (wraps modulo 2^64). -/
def sub64 (a b : Nat) : Nat := (a + (U64 - b % U64)) % U64

/-! ## Kernel heap (src/boot/heap.c) -/

/-- `sizeof(heap_block_t)` = 8 (`size_t size`) + 4 (`int free`) + 4 (padding)
+ 8 (`struct heap_block* next`) = 24 bytes on x86_64. -/
def HEADER_SIZE : Nat := 24

/-- `MIN_BLOCK_SIZE` from heap.c. -/
def MIN_BLOCK_SIZE : Nat := 16

/-- One heap block header: `{size_t size; int free;}`; the `next` pointer is
represented by list adjacency. -/
structure HeapBlock where
  size : Nat
  free : Bool
deriving DecidableEq

/-- The heap allocator state: `heap_start` (base address), `heap_size`,
`heap_used`, and the block list headed at `heap_start`. -/
structure HeapState where
  base : Nat
  heapSize : Nat
  heapUsed : Nat
  blocks : List HeapBlock
deriving DecidableEq

/-- `align_size`: `(size + 15) & ~15` in `size_t` arithmetic. -/
def align_size (s : Nat) : Nat := (((s + 15) % U64) / 16) * 16

/-- `heap_init(start, size)`: one free block spanning the whole region,
`heap_used = HEADER_SIZE`. -/
def heap_init (start size : Nat) : HeapState :=
  { base := start, heapSize := size, heapUsed := HEADER_SIZE,
    blocks := [{ size := sub64 size HEADER_SIZE, free := true }] }

/-- `find_free_block`: index of the first free block with `size ≤ block.size`. -/
def find_free_block : List HeapBlock → Nat → Option Nat
  | [], _ => none
  | b :: rest, s =>
      if b.free = true ∧ s ≤ b.size then some 0
      else (find_free_block rest s).map (· + 1)

/-- `split_block(block, size)` applied to the block at index `i`:
`remaining = block->size - size - HEADER_SIZE` in unsigned 64-bit arithmetic;
the block is split iff `MIN_BLOCK_SIZE ≤ remaining`. -/
def split_block : List HeapBlock → Nat → Nat → List HeapBlock
  | [], _, _ => []
  | b :: rest, 0, s =>
      let remaining := sub64 (sub64 b.size s) HEADER_SIZE
      if MIN_BLOCK_SIZE ≤ remaining then
        { size := s, free := b.free } :: { size := remaining, free := true } :: rest
      else b :: rest
  | b :: rest, i + 1, s => b :: split_block rest i s

/-- Set the `free` flag of the block at index `i`. -/
def mark_block : List HeapBlock → Nat → Bool → List HeapBlock
  | [], _, _ => []
  | b :: rest, 0, f => { b with free := f } :: rest
  | b :: rest, i + 1, f => b :: mark_block rest i f

/-- The body of `merge_free_blocks`' while loop; `fuel` bounds the iteration
count (the initial list length always suffices, see `merge_free_blocks`). -/
def merge_pass : Nat → List HeapBlock → List HeapBlock
  | 0, l => l
  | _ + 1, [] => []
  | _ + 1, [b] => [b]
  | fuel + 1, a :: b :: rest =>
      if a.free = true ∧ b.free = true then
        merge_pass fuel ({ size := (a.size + HEADER_SIZE + b.size) % U64, free := true } :: rest)
      else a :: merge_pass fuel (b :: rest)

/-- `merge_free_blocks`: single left-to-right coalescing pass. -/
def merge_free_blocks (l : List HeapBlock) : List HeapBlock := merge_pass l.length l

/-- Byte offset of the block header at index `i` from `heap_start`. -/
def block_off : List HeapBlock → Nat → Nat
  | _, 0 => 0
  | [], _ + 1 => 0
  | b :: rest, i + 1 => (HEADER_SIZE + b.size) + block_off rest i

/-- Payload address of the block at index `i`: header address + `HEADER_SIZE`,
as a 64-bit pointer. -/
def payload_ptr (base : Nat) (blocks : List HeapBlock) (i : Nat) : Nat :=
  (base + block_off blocks i + HEADER_SIZE) % U64

/-- Block at index `i` (the index is always in range where this is used). -/
def getBlock (l : List HeapBlock) (i : Nat) : HeapBlock := l.getD i ⟨0, true⟩

/-- `kmalloc(size)`: returns the payload pointer (or `none`) and the new state. -/
def kmalloc (st : HeapState) (size : Nat) : Option Nat × HeapState :=
  if size = 0 then (none, st)
  else
    let s := align_size size
    match find_free_block st.blocks s with
    | none => (none, st)
    | some i =>
        let blocks1 := split_block st.blocks i s
        let chosen := (getBlock blocks1 i).size
        (some (payload_ptr st.base blocks1 i),
         { st with blocks := mark_block blocks1 i false,
                   heapUsed := (st.heapUsed + (chosen + HEADER_SIZE) % U64) % U64 })

/-- `kcalloc(count, size)`: `kmalloc(count * size)` (the zeroing of the payload
has no effect on the heap structure). -/
def kcalloc (st : HeapState) (count size : Nat) : Option Nat × HeapState :=
  kmalloc st ((count * size) % U64)

/-- Index of the block whose payload address equals `p`, scanning with the
running header offset `off` (initially the heap base). -/
def find_payload : List HeapBlock → Nat → Nat → Option Nat
  | [], _, _ => none
  | b :: rest, off, p =>
      if (off + HEADER_SIZE) % U64 = p then some 0
      else (find_payload rest (off + HEADER_SIZE + b.size) p).map (· + 1)

/-- `kfree(ptr)`: no-op on null; derives the header address `ptr - HEADER_SIZE`,
rejects it if outside `[heap_start, heap_start + heap_size)`; a double free is
a no-op; otherwise marks free, decrements `heap_used`, and coalesces. -/
def kfree (st : HeapState) (p : Nat) : HeapState :=
  if p = 0 then st
  else
    let hdr := sub64 p HEADER_SIZE
    if hdr < st.base ∨ st.base + st.heapSize ≤ hdr then st
    else
      match find_payload st.blocks st.base p with
      | none => st
      | some i =>
          let b := getBlock st.blocks i
          if b.free = true then st
          else
            { st with blocks := merge_free_blocks (mark_block st.blocks i true),
                      heapUsed := sub64 st.heapUsed ((b.size + HEADER_SIZE) % U64) }

/-- `heap_stats`: `(total, used, free)`. -/
def heap_stats (st : HeapState) : Nat × Nat × Nat :=
  (st.heapSize, st.heapUsed, sub64 st.heapSize st.heapUsed)

/-- A client operation on the heap. `free p` frees the pointer `p`. -/
inductive HeapOp where
  | malloc (size : Nat)
  | calloc (count size : Nat)
  | free (p : Nat)

/-- Apply one heap operation (discarding the returned pointer). -/
def heap_step (st : HeapState) : HeapOp → HeapState
  | .malloc s => (kmalloc st s).2
  | .calloc c s => (kcalloc st c s).2
  | .free p => kfree st p

/-- State after `heap_init(start, size)` followed by a list of operations. -/
def heap_run (start size : Nat) (ops : List HeapOp) : HeapState :=
  ops.foldl heap_step (heap_init start size)

/-- Sum of `HEADER_SIZE + size` over the non-free blocks. -/
def used_sum : List HeapBlock → Nat
  | [] => 0
  | b :: rest => (if b.free then 0 else HEADER_SIZE + b.size) + used_sum rest

/-- Non-last blocks have 8-byte-aligned sizes (so every block header — and
hence every payload — keeps the alignment of the heap base modulo 8). -/
def sizes_aligned (l : List HeapBlock) : Prop :=
  ∀ i, i + 1 < l.length → (getBlock l i).size % 8 = 0

/-! ## Physical frame allocator (pmm.c) -/

/-- `PMM_PAGE_SIZE`. -/
def PMM_PAGE_SIZE : Nat := 4096

/-- `PMM_START_ADDR` (0x200000). -/
def PMM_START_ADDR : Nat := 2097152

/-- `PMM_MEMORY_SIZE` (14 MiB). -/
def PMM_MEMORY_SIZE : Nat := 14680064

/-- `PMM_TOTAL_PAGES` = 14 MiB / 4 KiB. -/
def PMM_TOTAL_PAGES : Nat := 3584

/-- The frame allocator state. The byte-packed `pmm_bitmap` is modelled as a
list of bits (`true` = used), bit `i` covering frame `PMM_START_ADDR + i*4096`;
the bit operations `page/8`, `1 << (page%8)` of the source address exactly
this sequence of bits. -/
structure PmmState where
  bitmap : List Bool
  free_count : Nat
  total_pages : Nat
deriving DecidableEq

/-- `pmm_test_bit` (out-of-range reads never happen in the source; the default
`true` makes them inert for allocation). -/
def pmm_test_bit (bm : List Bool) (page : Nat) : Bool := bm.getD page true

/-- `pmm_set_bit`. -/
def pmm_set_bit (bm : List Bool) (page : Nat) : List Bool := bm.set page true

/-- `pmm_clear_bit`. -/
def pmm_clear_bit (bm : List Bool) (page : Nat) : List Bool := bm.set page false

/-- `pmm_init`: all pages free. -/
def pmm_init : PmmState :=
  { bitmap := List.replicate PMM_TOTAL_PAGES false,
    free_count := PMM_TOTAL_PAGES, total_pages := PMM_TOTAL_PAGES }

/-- The first-clear-bit scan of `pmm_alloc_page` (`for i < PMM_TOTAL_PAGES`);
`fuel` bounds the iterations and is initially `PMM_TOTAL_PAGES`. -/
def pmm_find_free (bm : List Bool) : Nat → Nat → Option Nat
  | 0, _ => none
  | fuel + 1, i =>
      if i < PMM_TOTAL_PAGES then
        if pmm_test_bit bm i = false then some i else pmm_find_free bm fuel (i + 1)
      else none

/-- `pmm_alloc_page`. -/
def pmm_alloc_page (st : PmmState) : Option Nat × PmmState :=
  if st.free_count = 0 then (none, st)
  else
    match pmm_find_free st.bitmap PMM_TOTAL_PAGES 0 with
    | some i =>
        (some (PMM_START_ADDR + i * PMM_PAGE_SIZE),
         { st with bitmap := pmm_set_bit st.bitmap i, free_count := st.free_count - 1 })
    | none => (none, st)

/-- The contiguous-run scan of `pmm_alloc_pages`, with the `consecutive` and
`start` accumulators of the source; `fuel` is initially `PMM_TOTAL_PAGES`. -/
def pmm_scan (bm : List Bool) (count : Nat) : Nat → Nat → Nat → Nat → Option Nat
  | 0, _, _, _ => none
  | fuel + 1, i, consec, start =>
      if i < PMM_TOTAL_PAGES then
        if pmm_test_bit bm i = false then
          let start' := if consec = 0 then i else start
          if consec + 1 = count then some start'
          else pmm_scan bm count fuel (i + 1) (consec + 1) start'
        else pmm_scan bm count fuel (i + 1) 0 start
      else none

/-- The marking loop of `pmm_alloc_pages`: set bits `j ∈ [s, s+n)`. -/
def pmm_mark_range : List Bool → Nat → Nat → List Bool
  | bm, _, 0 => bm
  | bm, j, n + 1 => pmm_mark_range (pmm_set_bit bm j) (j + 1) n

/-- `pmm_alloc_pages(count)`. -/
def pmm_alloc_pages (st : PmmState) (count : Nat) : Option Nat × PmmState :=
  if count = 0 ∨ st.free_count < count then (none, st)
  else
    match pmm_scan st.bitmap count PMM_TOTAL_PAGES 0 0 0 with
    | some s =>
        (some (PMM_START_ADDR + s * PMM_PAGE_SIZE),
         { st with bitmap := pmm_mark_range st.bitmap s count,
                   free_count := st.free_count - count })
    | none => (none, st)

/-- `pmm_free_page(addr)`. -/
def pmm_free_page (st : PmmState) (addr : Nat) : PmmState :=
  if addr < PMM_START_ADDR ∨ PMM_START_ADDR + PMM_MEMORY_SIZE ≤ addr then st
  else
    let page := (addr - PMM_START_ADDR) / PMM_PAGE_SIZE
    if pmm_test_bit st.bitmap page = true then
      { st with bitmap := pmm_clear_bit st.bitmap page, free_count := st.free_count + 1 }
    else st

/-- `pmm_free_pages(addr, count)`. -/
def pmm_free_pages : PmmState → Nat → Nat → PmmState
  | st, _, 0 => st
  | st, addr, n + 1 => pmm_free_pages (pmm_free_page st addr) (addr + PMM_PAGE_SIZE) n

/-- A client operation on the frame allocator. -/
inductive PmmOp where
  | allocPage
  | allocPages (n : Nat)
  | freePage (addr : Nat)
  | freePages (addr n : Nat)

/-- Apply one operation (discarding the returned address). -/
def pmm_step (st : PmmState) : PmmOp → PmmState
  | .allocPage => (pmm_alloc_page st).2
  | .allocPages n => (pmm_alloc_pages st n).2
  | .freePage a => pmm_free_page st a
  | .freePages a n => pmm_free_pages st a n

/-- State after `pmm_init` followed by a list of operations. -/
def pmm_run (ops : List PmmOp) : PmmState := ops.foldl pmm_step pmm_init

/-- Number of cleared (free) bits. -/
def count_clear (bm : List Bool) : Nat := bm.count false

/-- A run of `n` contiguous free frames starting at frame `s`, entirely inside
the bitmap's range. -/
def is_window (bm : List Bool) (s n : Nat) : Prop :=
  s + n ≤ PMM_TOTAL_PAGES ∧ ∀ j, j < n → pmm_test_bit bm (s + j) = false

instance (bm s n) : Decidable (is_window bm s n) := by
  unfold is_window; infer_instance

/-! ## Virtio-net driver (src/drivers/virtio_net.c) -/

/-- `virtq_desc_t`: `{u64 addr; u32 len; u16 flags; u16 next}`. -/
structure VirtqDesc where
  addr : Nat
  len : Nat
  flags : Nat
  next : Nat
deriving DecidableEq

/-- One virtqueue, with the driver-side bookkeeping of `virtq_t`: descriptor
table, available ring and its index, used ring and its (device-owned) index,
queue size, cached `last_used_idx`, and the per-slot host buffers (contents
and physical addresses). -/
structure Virtq where
  desc : List VirtqDesc
  availRing : List Nat
  availIdx : Nat
  usedRing : List (Nat × Nat)
  usedIdx : Nat
  size : Nat
  lastUsedIdx : Nat
  buffers : List (List Nat)
  bufAddrs : List Nat
deriving DecidableEq

/-- Driver state relevant to send/receive: `virtio_initialized`, the static
`tx_idx` slot counter, and the two queues. -/
structure NetState where
  initialized : Bool
  txIdx : Nat
  rxq : Virtq
  txq : Virtq
deriving DecidableEq

/-- Device-visible memory/port writes, in program order. -/
inductive NetEvent where
  | bufferWrite (slot : Nat)
  | descWrite (slot : Nat) (d : VirtqDesc)
  | ringWrite (pos slot : Nat)
  | idxWrite (v : Nat)
  | notify (queue : Nat)
deriving DecidableEq

/-- `NET_BUFFER_SIZE`. -/
def NET_BUFFER_SIZE : Nat := 2048

/-- `sizeof(virtio_net_hdr_t)` = 10 bytes. -/
def VIRTIO_NET_HDR_SIZE : Nat := 10

/-- `VIRTQ_DESC_F_WRITE`. -/
def VIRTQ_DESC_F_WRITE : Nat := 2

/-- Structural well-formedness of a queue (established by `virtq_init`):
positive size and side tables of exactly `size` entries. -/
def virtq_wf (q : Virtq) : Prop :=
  0 < q.size ∧ q.desc.length = q.size ∧ q.availRing.length = q.size ∧
  q.buffers.length = q.size ∧ q.bufAddrs.length = q.size

/-- `virtq_add_rx_buffer(vq, idx)`: point the descriptor at the slot buffer
(device-writable, full buffer size), publish `idx` in the available ring, and
advance `avail.idx` (a 16-bit counter) after a compiler barrier. Returns the
updated queue and the device-visible writes in program order. -/
def virtq_add_rx_buffer (q : Virtq) (idx : Nat) : Virtq × List NetEvent :=
  let d : VirtqDesc :=
    { addr := q.bufAddrs.getD idx 0, len := NET_BUFFER_SIZE,
      flags := VIRTQ_DESC_F_WRITE, next := 0 }
  ({ q with desc := q.desc.set idx d,
            availRing := q.availRing.set (q.availIdx % q.size) idx,
            availIdx := (q.availIdx + 1) % 65536 },
   [.descWrite idx d, .ringWrite (q.availIdx % q.size) idx,
    .idxWrite ((q.availIdx + 1) % 65536)])

/-- `virtio_net_send(data, len)`: fails unless initialized and the payload
fits after the 10-byte virtio-net header; otherwise uses slot `tx_idx`,
writes a zeroed header and the payload into the slot buffer, fills the
descriptor, publishes the slot in the available ring, advances `avail.idx`
(16-bit) after a compiler barrier, rings the TX doorbell (queue 1), and
rotates `tx_idx` modulo the queue size. -/
def virtio_net_send (st : NetState) (data : List Nat) : Int × NetState × List NetEvent :=
  if st.initialized = false ∨ NET_BUFFER_SIZE - VIRTIO_NET_HDR_SIZE < data.length then
    (-1, st, [])
  else
    let q := st.txq
    let buf' := (List.replicate VIRTIO_NET_HDR_SIZE 0 ++ data) ++
                ((q.buffers.getD st.txIdx []).drop (VIRTIO_NET_HDR_SIZE + data.length))
    let d : VirtqDesc :=
      { addr := q.bufAddrs.getD st.txIdx 0, len := VIRTIO_NET_HDR_SIZE + data.length,
        flags := 0, next := 0 }
    let q' := { q with buffers := q.buffers.set st.txIdx buf',
                       desc := q.desc.set st.txIdx d,
                       availRing := q.availRing.set (q.availIdx % q.size) st.txIdx,
                       availIdx := (q.availIdx + 1) % 65536 }
    (0, { st with txq := q', txIdx := (st.txIdx + 1) % q.size },
     [.bufferWrite st.txIdx, .descWrite st.txIdx d,
      .ringWrite (q.availIdx % q.size) st.txIdx,
      .idxWrite ((q.availIdx + 1) % 65536), .notify 1])

/-- `virtio_net_receive(buffer, max_len)`: `-1` if not initialized; `0` with
no state change when `last_used_idx == used.idx`; otherwise consume the used
entry at `last_used_idx % size`, advance `last_used_idx` (16-bit), report
`min(len - hdr, max_len)` bytes (0 when `len ≤ hdr`), re-publish the slot via
`virtq_add_rx_buffer`, and ring the RX doorbell (queue 0). -/
def virtio_net_receive (st : NetState) (maxLen : Nat) : Int × NetState × List NetEvent :=
  if st.initialized = false then (-1, st, [])
  else if st.rxq.lastUsedIdx = st.rxq.usedIdx then (0, st, [])
  else
    let q := st.rxq
    let e := q.usedRing.getD (q.lastUsedIdx % q.size) (0, 0)
    let len : Nat :=
      if VIRTIO_NET_HDR_SIZE < e.2 then min (e.2 - VIRTIO_NET_HDR_SIZE) maxLen else 0
    let q1 := { q with lastUsedIdx := (q.lastUsedIdx + 1) % 65536 }
    let r := virtq_add_rx_buffer q1 e.1
    ((len : Int), { st with rxq := r.1 }, r.2 ++ [.notify 0])

/-! ## PS/2 keyboard (keyboard.c) -/

/-- `KBD_BUFFER_SIZE`. -/
def KBD_BUFFER_SIZE : Nat := 256

/-- Keyboard driver state: the four modifier flags and the byte ring buffer
with `head` (producer) and `tail` (consumer) indices. -/
structure KbdState where
  shift_pressed : Bool
  ctrl_pressed : Bool
  alt_pressed : Bool
  caps_lock : Bool
  buf : List Nat
  head : Nat
  tail : Nat
deriving DecidableEq

/-- `scancode_to_ascii` (US set 1), as byte values; the trailing entries of
the 128-byte C array are zero. -/
def scancode_to_ascii : List Nat :=
  [0, 27, 49, 50, 51, 52, 53, 54, 55, 56, 57, 48, 45, 61, 8,
   9, 113, 119, 101, 114, 116, 121, 117, 105, 111, 112, 91, 93, 10,
   0, 97, 115, 100, 102, 103, 104, 106, 107, 108, 59, 39, 96,
   0, 92, 122, 120, 99, 118, 98, 110, 109, 44, 46, 47, 0,
   42, 0, 32, 0, 0, 0, 0, 0, 0, 0, 0, 0, 0, 0, 0, 0,
   0, 0, 0, 45, 0, 0, 0, 43, 0, 0, 0, 0, 0, 0, 0, 0] ++
  List.replicate 41 0

/-- `scancode_to_ascii_shift`. -/
def scancode_to_ascii_shift : List Nat :=
  [0, 27, 33, 64, 35, 36, 37, 94, 38, 42, 40, 41, 95, 43, 8,
   9, 81, 87, 69, 82, 84, 89, 85, 73, 79, 80, 123, 125, 10,
   0, 65, 83, 68, 70, 71, 72, 74, 75, 76, 58, 34, 126,
   0, 124, 90, 88, 67, 86, 66, 78, 77, 60, 62, 63, 0,
   42, 0, 32, 0, 0, 0, 0, 0, 0, 0, 0, 0, 0, 0, 0, 0,
   0, 0, 0, 45, 0, 0, 0, 43, 0, 0, 0, 0, 0, 0, 0, 0] ++
  List.replicate 41 0

/-- `kbd_buffer_put(c)`: drop the byte when the ring is full. -/
def kbd_buffer_put (st : KbdState) (c : Nat) : KbdState :=
  let next := (st.head + 1) % KBD_BUFFER_SIZE
  if next ≠ st.tail then { st with buf := st.buf.set st.head c, head := next }
  else st

/-- `keyboard_interrupt_handler` acting on one scancode byte read from the
data port: bit 7 = release, modifier switch, press-only translation through
the (shifted) table, caps-lock case inversion, Ctrl+C, enqueue. -/
def keyboard_interrupt_handler (st : KbdState) (byte : Nat) : KbdState :=
  let released : Bool := byte &&& 128 != 0
  let sc := byte &&& 127
  if sc = 42 ∨ sc = 54 then { st with shift_pressed := !released }
  else if sc = 29 then { st with ctrl_pressed := !released }
  else if sc = 56 then { st with alt_pressed := !released }
  else if sc = 58 then
    if released = false then { st with caps_lock := !st.caps_lock } else st
  else if released = true then st
  else
    let c0 := if st.shift_pressed then scancode_to_ascii_shift.getD sc 0
              else scancode_to_ascii.getD sc 0
    let c1 := if st.caps_lock = true ∧ 97 ≤ c0 ∧ c0 ≤ 122 then c0 - 32
              else if st.caps_lock = true ∧ 65 ≤ c0 ∧ c0 ≤ 90 then c0 + 32
              else c0
    let c2 := if st.ctrl_pressed = true ∧ (c1 = 99 ∨ c1 = 67) then 3 else c1
    if c2 ≠ 0 then kbd_buffer_put st c2 else st

/-- Claim C1. The claim says an exact-fit block (block size equal to the
rounded request) is left un-split. The code violates it: in the reachable
state below, the first free block has size exactly 64, and `kmalloc(64)`
nevertheless splits it, because `remaining = 64 - 64 - HEADER_SIZE`
underflows in `size_t` arithmetic to `2^64 - 24 ≥ MIN_BLOCK_SIZE`, creating
a bogus free block of size `2^64 - 24` (in real memory this header write
lands on the next block's header, corrupting the heap). -/
theorem kmalloc_exact_fit_splits :
    (heap_run 0 1048576 [.malloc 64, .malloc 16, .free 24]).blocks =
      [⟨64, true⟩, ⟨16, false⟩, ⟨1048424, true⟩] ∧
    (kmalloc (heap_run 0 1048576 [.malloc 64, .malloc 16, .free 24]) 64).2.blocks =
      [⟨64, false⟩, ⟨18446744073709551592, true⟩, ⟨16, false⟩, ⟨1048424, true⟩] := by
  decide

/-- Claim C3: from `heap_init(base, 1 MiB)`, the sequence
`a = kmalloc 64; b = kmalloc 64; c = kmalloc 64; kfree b; kfree a; kfree c`
(the pointers are `base+24`, `base+112`, `base+200`) leaves a single free
block of payload size `1 MiB - HEADER_SIZE`. -/
theorem heap_split_coalesce_scenario :
    (heap_run 0 1048576
        [.malloc 64, .malloc 64, .malloc 64, .free 112, .free 24, .free 200]).blocks =
      [⟨1048552, true⟩] ∧ 1048552 = 1048576 - HEADER_SIZE := by
  decide

/-- Claim C2, counterexample: with the heap based at the 16-byte-aligned
address 0, the very first `kmalloc` returns payload pointer `0 + HEADER_SIZE
= 24`, which is not 16-byte aligned (headers are 24 bytes, not 16). -/
theorem kmalloc_payload_not_16_aligned :
    (kmalloc (heap_init 0 1048576) 64).1 = some 24 ∧ ¬ (24 % 16 = 0) := by
  decide

/-- Claim C5, counterexample: immediately after `heap_init`, the used-byte
counter reported by `heap_stats` is `HEADER_SIZE = 24`, while the sum of
`header + payload` over the non-free blocks is 0 (the single block is free). -/
theorem heap_used_counter_offset :
    (heap_stats (heap_init 0 1048576)).2.1 = 24 ∧
    used_sum (heap_init 0 1048576).blocks = 0 ∧ ¬ (24 = 0) := by
  decide

/-! ## List access helper lemmas -/

theorem getD_set_self {α : Type} (l : List α) (i : Nat) (a d : α) (h : i < l.length) :
    (l.set i a).getD i d = a := by
  rw [List.getD_eq_getElem _ _ (by simpa using h)]
  exact List.getElem_set_self (by simpa using h)

theorem getD_set_ne {α : Type} (l : List α) {i j : Nat} (a d : α) (h : i ≠ j) :
    (l.set i a).getD j d = l.getD j d := by
  rcases Nat.lt_or_ge j l.length with hj | hj
  · rw [List.getD_eq_getElem _ _ (by simpa using hj), List.getD_eq_getElem _ _ hj]
    exact List.getElem_set_ne h _
  · rw [List.getD_eq_default _ _ (by simpa using hj), List.getD_eq_default _ _ hj]

theorem test_bit_false_lt {bm : List Bool} {i : Nat} (h : pmm_test_bit bm i = false) :
    i < bm.length := by
  by_contra hc
  push_neg at hc
  rw [pmm_test_bit, List.getD_eq_default _ _ hc] at h
  cases h

/-! ## Keyboard: claim C9 -/

/-- Claim C9, counterexample: in a state where the shift flag is already set,
delivering the shift make scancode 0x2A followed by the break scancode 0xAA
leaves the shift flag cleared, not unchanged — the claim's quantification
over all four modifier values fails. -/
theorem shift_press_release_not_identity :
    ¬ ((keyboard_interrupt_handler (keyboard_interrupt_handler
          (⟨true, false, false, false, [], 0, 0⟩ : KbdState) 42) 170).shift_pressed =
        (⟨true, false, false, false, [], 0, 0⟩ : KbdState).shift_pressed) := by
  decide

/-- Claim C9 (amended): provided the shift flag is initially clear, a shift
make/break pair (0x2A/0xAA or 0x36/0xB6) leaves the whole keyboard state —
all four modifier flags and the ring buffer — unchanged; and in every state,
two caps-lock press/release sequences return `caps_lock` to its original
value. -/
theorem keyboard_modifier_spec (st : KbdState) :
    (st.shift_pressed = false →
      ∀ mk br, ((mk, br) = ((42 : Nat), (170 : Nat)) ∨ (mk, br) = (54, 182)) →
        keyboard_interrupt_handler (keyboard_interrupt_handler st mk) br = st) ∧
    (keyboard_interrupt_handler (keyboard_interrupt_handler
        (keyboard_interrupt_handler (keyboard_interrupt_handler st 58) 186) 58) 186).caps_lock
      = st.caps_lock := by
  constructor
  · intro h mk br hmb
    have hst : (⟨false, st.ctrl_pressed, st.alt_pressed, st.caps_lock,
        st.buf, st.head, st.tail⟩ : KbdState) = st := by
      cases st
      simp_all
    rcases hmb with h1 | h1 <;>
      (injection h1 with h2 h3; subst h2; subst h3; exact hst)
  · have e1 : keyboard_interrupt_handler st 58 = { st with caps_lock := !st.caps_lock } := rfl
    have e2 : keyboard_interrupt_handler { st with caps_lock := !st.caps_lock } 186 =
        { st with caps_lock := !st.caps_lock } := rfl
    rw [e1, e2]
    have e3 : keyboard_interrupt_handler { st with caps_lock := !st.caps_lock } 58 =
        { st with caps_lock := !(!st.caps_lock) } := rfl
    rw [e3]
    have e4 : keyboard_interrupt_handler { st with caps_lock := !(!st.caps_lock) } 186 =
        { st with caps_lock := !(!st.caps_lock) } := rfl
    rw [e4]
    simp

/-- Witness for `keyboard_modifier_spec` at a concrete state. -/
theorem keyboard_modifier_spec_witness :
    keyboard_interrupt_handler (keyboard_interrupt_handler
      (⟨false, false, false, false, [], 0, 0⟩ : KbdState) 42) 170 =
    (⟨false, false, false, false, [], 0, 0⟩ : KbdState) :=
  (keyboard_modifier_spec _).1 rfl 42 170 (Or.inl rfl)

/-! ## Virtio-net: claims C7 and C8 -/

/-- Claim C7: a successful `virtio_net_send` (driver initialized, payload
fits) returns 0; writes the current TX slot into
`avail.ring[avail.idx % size]`; fills that slot's descriptor with the slot
buffer address, length `10 + payload`, flags 0, next 0; leaves a zeroed
10-byte virtio-net header followed by the payload at the start of the slot
buffer; advances `avail.idx` by one as a 16-bit counter; and the emitted
write trace places the buffer, descriptor and ring writes before the
`avail.idx` store, which precedes the TX (queue 1) doorbell; finally the TX
slot index rotates by one modulo the queue size. -/
theorem virtio_net_send_spec (st : NetState) (data : List Nat)
    (hinit : st.initialized = true) (hlen : data.length ≤ 2038)
    (hwf : virtq_wf st.txq) (htx : st.txIdx < st.txq.size) :
    VIRTIO_NET_HDR_SIZE = 10 ∧
    (virtio_net_send st data).1 = 0 ∧
    (virtio_net_send st data).2.1.txq.availIdx = (st.txq.availIdx + 1) % 65536 ∧
    (virtio_net_send st data).2.1.txq.availRing.getD (st.txq.availIdx % st.txq.size) 0
      = st.txIdx ∧
    (virtio_net_send st data).2.1.txq.desc.getD st.txIdx ⟨0, 0, 0, 0⟩ =
      ⟨st.txq.bufAddrs.getD st.txIdx 0, VIRTIO_NET_HDR_SIZE + data.length, 0, 0⟩ ∧
    ((virtio_net_send st data).2.1.txq.buffers.getD st.txIdx []).take
        (VIRTIO_NET_HDR_SIZE + data.length) =
      List.replicate VIRTIO_NET_HDR_SIZE 0 ++ data ∧
    (virtio_net_send st data).2.1.txIdx = (st.txIdx + 1) % st.txq.size ∧
    (virtio_net_send st data).2.2 =
      [.bufferWrite st.txIdx,
       .descWrite st.txIdx
         ⟨st.txq.bufAddrs.getD st.txIdx 0, VIRTIO_NET_HDR_SIZE + data.length, 0, 0⟩,
       .ringWrite (st.txq.availIdx % st.txq.size) st.txIdx,
       .idxWrite ((st.txq.availIdx + 1) % 65536), .notify 1] := by
  obtain ⟨hsz, hdesc, hring, hbuf, haddr⟩ := hwf
  have hguard : ¬ (st.initialized = false ∨
      NET_BUFFER_SIZE - VIRTIO_NET_HDR_SIZE < data.length) := by
    simp [hinit, NET_BUFFER_SIZE, VIRTIO_NET_HDR_SIZE]
    omega
  unfold virtio_net_send
  rw [if_neg hguard]
  dsimp only
  refine ⟨rfl, rfl, rfl, ?_, ?_, ?_, rfl, rfl⟩
  · rw [getD_set_self st.txq.availRing (st.txq.availIdx % st.txq.size) st.txIdx 0
      (by rw [hring]; exact Nat.mod_lt _ hsz)]
  · rw [getD_set_self st.txq.desc st.txIdx _ _ (by rw [hdesc]; exact htx)]
  · rw [getD_set_self st.txq.buffers st.txIdx _ _ (by rw [hbuf]; exact htx)]
    exact List.take_left' (by simp)

/-- Witness for `virtio_net_send_spec` on a concrete two-slot queue. -/
theorem virtio_net_send_spec_witness :
    (virtio_net_send
      ⟨true, 0,
       ⟨[⟨0, 0, 0, 0⟩, ⟨0, 0, 0, 0⟩], [9, 9], 3, [(0, 0), (0, 0)], 0, 2, 0, [[], []], [111, 222]⟩,
       ⟨[⟨0, 0, 0, 0⟩, ⟨0, 0, 0, 0⟩], [9, 9], 3, [(0, 0), (0, 0)], 0, 2, 0, [[], []], [111, 222]⟩⟩
      [5, 6]).1 = 0 :=
  (virtio_net_send_spec _ [5, 6] rfl (by decide) (by unfold virtq_wf; decide) (by decide)).2.1

/-- Claim C8: `virtio_net_receive` returns 0 and leaves the state unchanged
when `last_used_idx == used.idx`; and when the consumed used-ring entry
reports a total length of at most the 10-byte virtio-net header, it returns
0 bytes while still advancing `last_used_idx` by one (16-bit) and
re-publishing that slot into the RX available ring — descriptor pointed at
the slot buffer, device-writable, full buffer length — with the `avail.idx`
store after the descriptor and ring-entry writes and a final RX (queue 0)
doorbell write. -/
theorem virtio_net_receive_spec (st : NetState) (maxLen : Nat)
    (hinit : st.initialized = true) (hwf : virtq_wf st.rxq) :
    (st.rxq.lastUsedIdx = st.rxq.usedIdx → virtio_net_receive st maxLen = (0, st, [])) ∧
    (∀ id len0,
      st.rxq.lastUsedIdx ≠ st.rxq.usedIdx →
      st.rxq.usedRing.getD (st.rxq.lastUsedIdx % st.rxq.size) (0, 0) = (id, len0) →
      len0 ≤ VIRTIO_NET_HDR_SIZE → id < st.rxq.size →
      (virtio_net_receive st maxLen).1 = 0 ∧
      (virtio_net_receive st maxLen).2.1.rxq.lastUsedIdx
        = (st.rxq.lastUsedIdx + 1) % 65536 ∧
      (virtio_net_receive st maxLen).2.1.rxq.desc.getD id ⟨0, 0, 0, 0⟩ =
        ⟨st.rxq.bufAddrs.getD id 0, NET_BUFFER_SIZE, VIRTQ_DESC_F_WRITE, 0⟩ ∧
      (virtio_net_receive st maxLen).2.1.rxq.availRing.getD
          (st.rxq.availIdx % st.rxq.size) 0 = id ∧
      (virtio_net_receive st maxLen).2.1.rxq.availIdx = (st.rxq.availIdx + 1) % 65536 ∧
      (virtio_net_receive st maxLen).2.2 =
        [.descWrite id ⟨st.rxq.bufAddrs.getD id 0, NET_BUFFER_SIZE, VIRTQ_DESC_F_WRITE, 0⟩,
         .ringWrite (st.rxq.availIdx % st.rxq.size) id,
         .idxWrite ((st.rxq.availIdx + 1) % 65536), .notify 0]) := by
  obtain ⟨hsz, hdesc, hring, hbuf, haddr⟩ := hwf
  constructor
  · intro h
    unfold virtio_net_receive
    rw [if_neg (by simp [hinit]), if_pos h]
  · intro id len0 hne he hlen0 hid
    unfold virtio_net_receive
    rw [if_neg (by simp [hinit]), if_neg hne]
    unfold virtq_add_rx_buffer
    dsimp only
    rw [he]
    dsimp only
    have hlen : ¬ (VIRTIO_NET_HDR_SIZE < len0) := by omega
    rw [if_neg hlen]
    refine ⟨rfl, rfl, ?_, ?_, rfl, rfl⟩
    · exact getD_set_self _ _ _ _ (by rw [hdesc]; exact hid)
    · exact getD_set_self _ _ _ _ (by rw [hring]; exact Nat.mod_lt _ hsz)

/-- Witness for `virtio_net_receive_spec` on a concrete two-slot queue whose
pending used entry reports only 4 bytes (less than the 10-byte header). -/
theorem virtio_net_receive_spec_witness :
    (virtio_net_receive
      ⟨true, 0,
       ⟨[⟨0, 0, 0, 0⟩, ⟨0, 0, 0, 0⟩], [9, 9], 5, [(1, 4), (0, 0)], 1, 2, 0, [[], []], [100, 200]⟩,
       ⟨[⟨0, 0, 0, 0⟩, ⟨0, 0, 0, 0⟩], [9, 9], 5, [(1, 4), (0, 0)], 1, 2, 0, [[], []], [100, 200]⟩⟩
      50).1 = 0 :=
  ((virtio_net_receive_spec _ 50 rfl (by unfold virtq_wf; decide)).2 1 4
    (by decide) (by decide) (by decide) (by decide)).1

/-! ## PMM free-page: claim C10 -/

/-- Claim C10: `pmm_free_page` on any address inside the managed window —
aligned or not — acts on the frame containing the address, clearing its
bitmap bit if set (leaving every other bit unchanged) and incrementing the
free count; a clear bit is left alone; addresses outside the window are
ignored. -/
theorem pmm_free_page_spec (st : PmmState) (addr : Nat)
    (hlen : st.bitmap.length = PMM_TOTAL_PAGES) :
    (PMM_START_ADDR ≤ addr → addr < PMM_START_ADDR + PMM_MEMORY_SIZE →
      (st.bitmap.getD ((addr - PMM_START_ADDR) / PMM_PAGE_SIZE) true = true →
        (pmm_free_page st addr).bitmap.getD ((addr - PMM_START_ADDR) / PMM_PAGE_SIZE) true
            = false ∧
        (∀ j, j ≠ (addr - PMM_START_ADDR) / PMM_PAGE_SIZE →
          (pmm_free_page st addr).bitmap.getD j true = st.bitmap.getD j true) ∧
        (pmm_free_page st addr).free_count = st.free_count + 1) ∧
      (st.bitmap.getD ((addr - PMM_START_ADDR) / PMM_PAGE_SIZE) true = false →
        pmm_free_page st addr = st)) ∧
    (addr < PMM_START_ADDR ∨ PMM_START_ADDR + PMM_MEMORY_SIZE ≤ addr →
      pmm_free_page st addr = st) := by
  constructor
  · intro h1 h2
    have hguard : ¬ (addr < PMM_START_ADDR ∨ PMM_START_ADDR + PMM_MEMORY_SIZE ≤ addr) := by
      omega
    have hpage : (addr - PMM_START_ADDR) / PMM_PAGE_SIZE < st.bitmap.length := by
      rw [hlen]
      simp only [PMM_START_ADDR, PMM_MEMORY_SIZE, PMM_PAGE_SIZE, PMM_TOTAL_PAGES] at *
      omega
    constructor
    · intro hbit
      unfold pmm_free_page
      rw [if_neg hguard]
      dsimp only
      rw [if_pos (by rw [pmm_test_bit]; exact hbit)]
      refine ⟨getD_set_self _ _ _ _ hpage, fun j hj => getD_set_ne _ _ _ (fun e => hj e.symm),
        rfl⟩
    · intro hbit
      unfold pmm_free_page
      rw [if_neg hguard]
      dsimp only
      rw [if_neg (by rw [pmm_test_bit, hbit]; exact Bool.false_ne_true)]
  · intro h
    unfold pmm_free_page
    rw [if_pos h]

/-- Witness for `pmm_free_page_spec`: freeing the unaligned address
`0x200000 + 5*4096 + 123` clears frame 5's bit and restores the free count. -/
theorem pmm_free_page_spec_witness :
    (pmm_free_page ⟨(List.replicate 3584 false).set 5 true, 3583, 3584⟩ 2117755).free_count
      = 3583 + 1 :=
  (((pmm_free_page_spec ⟨(List.replicate 3584 false).set 5 true, 3583, 3584⟩ 2117755
      (by rw [List.length_set, List.length_replicate]; rfl)).1
      (by norm_num [PMM_START_ADDR]) (by norm_num [PMM_START_ADDR, PMM_MEMORY_SIZE])).1
      (by norm_num [PMM_START_ADDR, PMM_PAGE_SIZE])).2.2

/-! ## Heap structural lemmas -/

theorem find_free_block_spec {l : List HeapBlock} {s i : Nat}
    (h : find_free_block l s = some i) :
    i < l.length ∧ (getBlock l i).free = true ∧ s ≤ (getBlock l i).size := by
  induction l generalizing i with
  | nil => simp [find_free_block] at h
  | cons b rest ih =>
    rw [find_free_block] at h
    by_cases hb : b.free = true ∧ s ≤ b.size
    · rw [if_pos hb] at h
      cases h
      exact ⟨Nat.succ_pos _, hb.1, hb.2⟩
    · rw [if_neg hb] at h
      cases hfr : find_free_block rest s with
      | none => rw [hfr] at h; simp at h
      | some j =>
        rw [hfr] at h
        simp only [Option.map_some'] at h
        cases h
        obtain ⟨h1, h2, h3⟩ := ih hfr
        exact ⟨Nat.succ_lt_succ h1, h2, h3⟩

theorem split_block_length (l : List HeapBlock) (i s : Nat) :
    l.length ≤ (split_block l i s).length := by
  induction l generalizing i with
  | nil => simp [split_block]
  | cons b rest ih =>
    cases i with
    | zero =>
      rw [split_block]
      split
      · simp
      · simp
    | succ n =>
      rw [split_block]
      simpa using ih n

theorem split_block_getBlock_free (l : List HeapBlock) (i s : Nat) :
    (getBlock (split_block l i s) i).free = (getBlock l i).free := by
  induction l generalizing i with
  | nil => cases i <;> simp [split_block]
  | cons b rest ih =>
    cases i with
    | zero =>
      rw [split_block]
      split <;> rfl
    | succ n =>
      rw [split_block]
      exact ih n

theorem mark_block_length (l : List HeapBlock) (i : Nat) (f : Bool) :
    (mark_block l i f).length = l.length := by
  induction l generalizing i with
  | nil => rfl
  | cons b rest ih =>
    cases i with
    | zero => rfl
    | succ n => simpa [mark_block] using ih n

theorem find_payload_lt {l : List HeapBlock} {off p i : Nat}
    (h : find_payload l off p = some i) : i < l.length := by
  induction l generalizing off i with
  | nil => simp [find_payload] at h
  | cons b rest ih =>
    rw [find_payload] at h
    by_cases he : (off + HEADER_SIZE) % U64 = p
    · rw [if_pos he] at h
      cases h
      simp
    · rw [if_neg he] at h
      cases hfr : find_payload rest (off + HEADER_SIZE + b.size) p with
      | none => rw [hfr] at h; simp at h
      | some j =>
        rw [hfr] at h
        simp only [Option.map_some'] at h
        cases h
        exact Nat.succ_lt_succ (ih hfr)

/-! ## Heap payload alignment (claim C2) -/

theorem sizes_aligned_nil : sizes_aligned [] := by
  intro i hi
  simp at hi

theorem sizes_aligned_cons {b : HeapBlock} {l : List HeapBlock} :
    sizes_aligned (b :: l) ↔ (l = [] ∨ b.size % 8 = 0) ∧ sizes_aligned l := by
  constructor
  · intro h
    refine ⟨?_, fun i hi => ?_⟩
    · rcases l with _ | ⟨c, t⟩
      · exact Or.inl rfl
      · exact Or.inr (h 0 (by simp))
    · exact h (i + 1) (by simpa using hi)
  · intro h i hi
    cases i with
    | zero =>
      rcases h.1 with h1 | h1
      · subst h1
        simp at hi
      · exact h1
    | succ n => exact h.2 n (by simpa using hi)

theorem mod_U64_mod8 (a : Nat) : a % U64 % 8 = a % 8 := by
  simp only [U64]
  omega

theorem sub64_mod8 {a b : Nat} (ha : a % 8 = 0) (hb : b % 8 = 0) : sub64 a b % 8 = 0 := by
  simp only [sub64, U64] at *
  omega

theorem align_size_mod8 (s : Nat) : align_size s % 8 = 0 := by
  simp only [align_size, U64]
  omega

theorem sizes_aligned_split {l : List HeapBlock} (i : Nat) {s : Nat} (hs : s % 8 = 0)
    (hal : sizes_aligned l) : sizes_aligned (split_block l i s) := by
  induction l generalizing i with
  | nil => simpa [split_block] using hal
  | cons b rest ih =>
    rw [sizes_aligned_cons] at hal
    cases i with
    | zero =>
      rw [split_block]
      by_cases hrem : MIN_BLOCK_SIZE ≤ sub64 (sub64 b.size s) HEADER_SIZE
      · rw [if_pos hrem]
        refine sizes_aligned_cons.mpr ⟨Or.inr hs, sizes_aligned_cons.mpr ⟨?_, hal.2⟩⟩
        rcases hal.1 with h | h
        · exact Or.inl h
        · exact Or.inr (sub64_mod8 (sub64_mod8 h hs) (by norm_num [HEADER_SIZE]))
      · rw [if_neg hrem]
        exact sizes_aligned_cons.mpr hal
    | succ n =>
      rw [split_block]
      refine sizes_aligned_cons.mpr ⟨?_, ih n hal.2⟩
      rcases hal.1 with h | h
      · subst h
        left
        rfl
      · exact Or.inr h

theorem sizes_aligned_mark {l : List HeapBlock} (i : Nat) (f : Bool)
    (hal : sizes_aligned l) : sizes_aligned (mark_block l i f) := by
  induction l generalizing i with
  | nil => simpa [mark_block] using hal
  | cons b rest ih =>
    rw [sizes_aligned_cons] at hal
    cases i with
    | zero =>
      rw [mark_block]
      exact sizes_aligned_cons.mpr hal
    | succ n =>
      rw [mark_block]
      refine sizes_aligned_cons.mpr ⟨?_, ih n hal.2⟩
      rcases hal.1 with h | h
      · subst h
        left
        rfl
      · exact Or.inr h

theorem sizes_aligned_merge_pass {fuel : Nat} {l : List HeapBlock}
    (hal : sizes_aligned l) : sizes_aligned (merge_pass fuel l) := by
  induction fuel generalizing l with
  | zero => simpa [merge_pass] using hal
  | succ n ih =>
    rcases l with _ | ⟨a, _ | ⟨b, rest⟩⟩
    · simpa [merge_pass] using hal
    · simpa [merge_pass] using hal
    · rw [sizes_aligned_cons] at hal
      have ha : a.size % 8 = 0 := by
        rcases hal.1 with h | h
        · exact absurd h (by simp)
        · exact h
      have hb := sizes_aligned_cons.mp hal.2
      rw [merge_pass]
      by_cases hf : a.free = true ∧ b.free = true
      · rw [if_pos hf]
        apply ih
        refine sizes_aligned_cons.mpr ⟨?_, hb.2⟩
        rcases hb.1 with h | h
        · exact Or.inl h
        · refine Or.inr ?_
          have : (a.size + HEADER_SIZE + b.size) % U64 % 8 = (a.size + HEADER_SIZE + b.size) % 8 :=
            mod_U64_mod8 _
          simp only [HEADER_SIZE] at *
          omega
      · rw [if_neg hf]
        exact sizes_aligned_cons.mpr ⟨Or.inr ha, ih hal.2⟩

theorem block_off_mod8 {l : List HeapBlock} {i : Nat} (hi : i < l.length)
    (hal : sizes_aligned l) : block_off l i % 8 = 0 := by
  induction l generalizing i with
  | nil => simp at hi
  | cons b rest ih =>
    cases i with
    | zero => simp [block_off]
    | succ n =>
      rw [block_off]
      have hb : b.size % 8 = 0 := by
        rcases (sizes_aligned_cons.mp hal).1 with h | h
        · subst h
          simp at hi
        · exact h
      have hr := ih (by simpa using Nat.lt_of_succ_lt_succ hi) (sizes_aligned_cons.mp hal).2
      simp only [HEADER_SIZE]
      omega

theorem kmalloc_base (st : HeapState) (s : Nat) : (kmalloc st s).2.base = st.base := by
  unfold kmalloc
  by_cases h0 : s = 0
  · rw [if_pos h0]
  · rw [if_neg h0]
    dsimp only
    cases hf : find_free_block st.blocks (align_size s) with
    | none => rfl
    | some i => rfl

theorem kfree_base (st : HeapState) (p : Nat) : (kfree st p).base = st.base := by
  unfold kfree
  by_cases h0 : p = 0
  · rw [if_pos h0]
  · rw [if_neg h0]
    dsimp only
    by_cases h1 : sub64 p HEADER_SIZE < st.base ∨ st.base + st.heapSize ≤ sub64 p HEADER_SIZE
    · rw [if_pos h1]
    · rw [if_neg h1]
      cases hfp : find_payload st.blocks st.base p with
      | none => rfl
      | some i =>
        dsimp only
        by_cases h2 : (getBlock st.blocks i).free = true
        · rw [if_pos h2]
        · rw [if_neg h2]

theorem heap_step_base (st : HeapState) (op : HeapOp) : (heap_step st op).base = st.base := by
  cases op with
  | malloc s => exact kmalloc_base st s
  | calloc c s => exact kmalloc_base st ((c * s) % U64)
  | free p => exact kfree_base st p

theorem heap_run_base (start size : Nat) (ops : List HeapOp) :
    (heap_run start size ops).base = start := by
  suffices h : ∀ (ops : List HeapOp) (st : HeapState), (ops.foldl heap_step st).base = st.base by
    rw [heap_run, h]
    rfl
  intro ops
  induction ops with
  | nil => intro st; rfl
  | cons op rest ih =>
    intro st
    rw [List.foldl_cons, ih, heap_step_base]

theorem sizes_aligned_kmalloc (st : HeapState) (s : Nat)
    (hal : sizes_aligned st.blocks) : sizes_aligned (kmalloc st s).2.blocks := by
  unfold kmalloc
  by_cases h0 : s = 0
  · rw [if_pos h0]
    exact hal
  · rw [if_neg h0]
    dsimp only
    cases hf : find_free_block st.blocks (align_size s) with
    | none => exact hal
    | some i =>
      exact sizes_aligned_mark _ _ (sizes_aligned_split _ (align_size_mod8 _) hal)

theorem sizes_aligned_kfree (st : HeapState) (p : Nat)
    (hal : sizes_aligned st.blocks) : sizes_aligned (kfree st p).blocks := by
  unfold kfree
  by_cases h0 : p = 0
  · rw [if_pos h0]
    exact hal
  · rw [if_neg h0]
    dsimp only
    by_cases h1 : sub64 p HEADER_SIZE < st.base ∨ st.base + st.heapSize ≤ sub64 p HEADER_SIZE
    · rw [if_pos h1]
      exact hal
    · rw [if_neg h1]
      cases hfp : find_payload st.blocks st.base p with
      | none => exact hal
      | some i =>
        dsimp only
        by_cases h2 : (getBlock st.blocks i).free = true
        · rw [if_pos h2]
          exact hal
        · rw [if_neg h2]
          exact sizes_aligned_merge_pass (sizes_aligned_mark _ _ hal)

theorem sizes_aligned_run (start size : Nat) (ops : List HeapOp) :
    sizes_aligned (heap_run start size ops).blocks := by
  suffices h : ∀ (ops : List HeapOp) (st : HeapState), sizes_aligned st.blocks →
      sizes_aligned (ops.foldl heap_step st).blocks by
    exact h ops (heap_init start size) (by simp [heap_init, sizes_aligned])
  intro ops
  induction ops with
  | nil => intro st hst; exact hst
  | cons op rest ih =>
    intro st hst
    rw [List.foldl_cons]
    apply ih
    cases op with
    | malloc s => exact sizes_aligned_kmalloc st s hst
    | calloc c s => exact sizes_aligned_kmalloc st ((c * s) % U64) hst
    | free p => exact sizes_aligned_kfree st p hst

/-- Claim C2 (amended): with the heap based at a 16-byte-aligned address,
every non-null pointer returned by `kmalloc` or `kcalloc` — in any state
reachable from `heap_init` by any sequence of kmalloc/kcalloc/kfree
operations — is 8-byte aligned (not 16: the 24-byte header makes the first
payload `base + 24 ≡ 8 (mod 16)`). -/
theorem kmalloc_payload_8_aligned (start size : Nat) (ops : List HeapOp)
    (hb : start % 16 = 0) :
    (∀ req p st', kmalloc (heap_run start size ops) req = (some p, st') → p % 8 = 0) ∧
    (∀ c n p st', kcalloc (heap_run start size ops) c n = (some p, st') → p % 8 = 0) := by
  have hal := sizes_aligned_run start size ops
  have hbase := heap_run_base start size ops
  have hmain : ∀ req p st',
      kmalloc (heap_run start size ops) req = (some p, st') → p % 8 = 0 := by
    intro req p st' h
    unfold kmalloc at h
    by_cases h0 : req = 0
    · rw [if_pos h0] at h
      simp at h
    · rw [if_neg h0] at h
      dsimp only at h
      cases hf : find_free_block (heap_run start size ops).blocks (align_size req) with
      | none =>
        rw [hf] at h
        simp at h
      | some i =>
        rw [hf] at h
        dsimp only at h
        have hp : p = payload_ptr (heap_run start size ops).base
            (split_block (heap_run start size ops).blocks i (align_size req)) i := by
          have h1 := congrArg Prod.fst h
          simp only [Prod.fst] at h1
          exact (Option.some.inj h1).symm
        obtain ⟨hlt, _, _⟩ := find_free_block_spec hf
        have hi1 : i < (split_block (heap_run start size ops).blocks i (align_size req)).length :=
          Nat.lt_of_lt_of_le hlt (split_block_length _ _ _)
        have hal1 := sizes_aligned_split i (align_size_mod8 req) hal
        have hoff := block_off_mod8 hi1 hal1
        rw [hp, payload_ptr, hbase, mod_U64_mod8]
        simp only [HEADER_SIZE]
        omega
  exact ⟨hmain, fun c n p st' h => hmain ((c * n) % U64) p st' h⟩

/-- Witness for `kmalloc_payload_8_aligned`: the first allocation at base 16
returns pointer 40, which is 8-byte aligned. -/
theorem kmalloc_payload_8_aligned_witness : (40 : Nat) % 8 = 0 :=
  (kmalloc_payload_8_aligned 16 4096 [] (by decide)).1 64 40
    ⟨16, 4096, 112, [⟨64, false⟩, ⟨3984, true⟩]⟩ (by decide)

/-! ## Heap used-byte accounting (claim C5) -/

theorem used_sum_split {l : List HeapBlock} {i : Nat} (s : Nat)
    (hf : (getBlock l i).free = true) : used_sum (split_block l i s) = used_sum l := by
  induction l generalizing i with
  | nil => simp [split_block]
  | cons b rest ih =>
    cases i with
    | zero =>
      have hb : b.free = true := hf
      rw [split_block]
      by_cases hrem : MIN_BLOCK_SIZE ≤ sub64 (sub64 b.size s) HEADER_SIZE
      · rw [if_pos hrem]
        simp [used_sum, hb]
      · rw [if_neg hrem]
    | succ n =>
      rw [split_block]
      simp only [used_sum]
      rw [ih hf]

theorem getBlock_cons_zero (b : HeapBlock) (l : List HeapBlock) : getBlock (b :: l) 0 = b := rfl

theorem getBlock_cons_succ (b : HeapBlock) (l : List HeapBlock) (n : Nat) :
    getBlock (b :: l) (n + 1) = getBlock l n := rfl

theorem used_sum_mark_false {l : List HeapBlock} {i : Nat} (hi : i < l.length)
    (hf : (getBlock l i).free = true) :
    used_sum (mark_block l i false) = used_sum l + (HEADER_SIZE + (getBlock l i).size) := by
  induction l generalizing i with
  | nil => simp at hi
  | cons b rest ih =>
    cases i with
    | zero =>
      have hb : b.free = true := hf
      rw [getBlock_cons_zero]
      simp [mark_block, used_sum, hb]
      all_goals omega
    | succ n =>
      rw [getBlock_cons_succ, mark_block]
      simp only [used_sum]
      rw [ih (Nat.lt_of_succ_lt_succ hi) hf]
      omega

theorem used_sum_mark_true {l : List HeapBlock} {i : Nat} (hi : i < l.length)
    (hf : (getBlock l i).free = false) :
    used_sum l = used_sum (mark_block l i true) + (HEADER_SIZE + (getBlock l i).size) := by
  induction l generalizing i with
  | nil => simp at hi
  | cons b rest ih =>
    cases i with
    | zero =>
      have hb : b.free = false := hf
      rw [getBlock_cons_zero]
      simp [mark_block, used_sum, hb]
      all_goals omega
    | succ n =>
      rw [getBlock_cons_succ, mark_block]
      simp only [used_sum]
      rw [ih (Nat.lt_of_succ_lt_succ hi) hf]
      omega

theorem used_sum_merge_pass (fuel : Nat) (l : List HeapBlock) :
    used_sum (merge_pass fuel l) = used_sum l := by
  induction fuel generalizing l with
  | zero => rfl
  | succ n ih =>
    rcases l with _ | ⟨a, _ | ⟨b, rest⟩⟩
    · rfl
    · rfl
    · rw [merge_pass]
      by_cases hf : a.free = true ∧ b.free = true
      · rw [if_pos hf, ih]
        simp [used_sum, hf.1, hf.2]
      · rw [if_neg hf]
        simp only [used_sum]
        rw [ih]
        simp only [used_sum]

theorem used_inv_kmalloc (st : HeapState) (s : Nat)
    (h : st.heapUsed = (HEADER_SIZE + used_sum st.blocks) % U64) :
    (kmalloc st s).2.heapUsed = (HEADER_SIZE + used_sum (kmalloc st s).2.blocks) % U64 := by
  unfold kmalloc
  by_cases h0 : s = 0
  · rw [if_pos h0]
    exact h
  · rw [if_neg h0]
    dsimp only
    cases hf : find_free_block st.blocks (align_size s) with
    | none => exact h
    | some i =>
      dsimp only
      obtain ⟨hlt, hfree, _⟩ := find_free_block_spec hf
      have hi1 : i < (split_block st.blocks i (align_size s)).length :=
        Nat.lt_of_lt_of_le hlt (split_block_length _ _ _)
      have hfree1 : (getBlock (split_block st.blocks i (align_size s)) i).free = true := by
        rw [split_block_getBlock_free]
        exact hfree
      have e1 := used_sum_mark_false hi1 hfree1
      have e2 := used_sum_split (l := st.blocks) (i := i) (align_size s) hfree
      rw [e1, e2, h]
      simp only [HEADER_SIZE, U64]
      omega

theorem used_inv_kfree (st : HeapState) (p : Nat)
    (h : st.heapUsed = (HEADER_SIZE + used_sum st.blocks) % U64) :
    (kfree st p).heapUsed = (HEADER_SIZE + used_sum (kfree st p).blocks) % U64 := by
  unfold kfree
  by_cases h0 : p = 0
  · rw [if_pos h0]
    exact h
  · rw [if_neg h0]
    dsimp only
    by_cases h1 : sub64 p HEADER_SIZE < st.base ∨ st.base + st.heapSize ≤ sub64 p HEADER_SIZE
    · rw [if_pos h1]
      exact h
    · rw [if_neg h1]
      cases hfp : find_payload st.blocks st.base p with
      | none => exact h
      | some i =>
        dsimp only
        by_cases h2 : (getBlock st.blocks i).free = true
        · rw [if_pos h2]
          exact h
        · rw [if_neg h2]
          dsimp only
          have hi : i < st.blocks.length := find_payload_lt hfp
          have hfree : (getBlock st.blocks i).free = false := by
            rwa [Bool.not_eq_true] at h2
          have e1 := used_sum_mark_true hi hfree
          rw [merge_free_blocks, used_sum_merge_pass, h, e1]
          simp only [sub64, HEADER_SIZE, U64]
          omega

/-! ## PMM bitmap counting lemmas -/

theorem getD_set_default {α : Type} (l : List α) (i : Nat) (a : α) :
    (l.set i a).getD i a = a := by
  rcases Nat.lt_or_ge i l.length with h | h
  · exact getD_set_self l i a a h
  · rw [List.getD_eq_default _ _ (by simpa using h)]

theorem count_set_true {bm : List Bool} {i : Nat} (h : pmm_test_bit bm i = false) :
    count_clear bm = count_clear (pmm_set_bit bm i) + 1 := by
  induction bm generalizing i with
  | nil =>
    rw [pmm_test_bit, List.getD_nil] at h
    cases h
  | cons b t ih =>
    cases i with
    | zero =>
      have hb : b = false := h
      subst hb
      simp [count_clear, pmm_set_bit, List.count_cons]
    | succ n =>
      have ht : pmm_test_bit t n = false := h
      simp only [count_clear, pmm_set_bit, List.set_cons_succ, List.count_cons]
      have := ih ht
      simp only [count_clear, pmm_set_bit] at this
      omega

theorem count_set_false {bm : List Bool} {i : Nat} (hi : i < bm.length)
    (h : pmm_test_bit bm i = true) :
    count_clear (pmm_clear_bit bm i) = count_clear bm + 1 := by
  induction bm generalizing i with
  | nil => simp at hi
  | cons b t ih =>
    cases i with
    | zero =>
      have hb : b = true := h
      subst hb
      simp [count_clear, pmm_clear_bit, List.count_cons]
    | succ n =>
      have ht : pmm_test_bit t n = true := h
      simp only [count_clear, pmm_clear_bit, List.set_cons_succ, List.count_cons]
      have := ih (by simpa using Nat.lt_of_succ_lt_succ hi) ht
      simp only [count_clear, pmm_clear_bit] at this
      omega

theorem window_count_aux (bm : List Bool) :
    ∀ n s, (∀ j, j < n → pmm_test_bit bm (s + j) = false) →
      n ≤ (bm.drop s).count false := by
  intro n
  induction n with
  | zero => intro s _; exact Nat.zero_le _
  | succ m ih =>
    intro s h
    have h0 : pmm_test_bit bm s = false := by
      have := h 0 (Nat.succ_pos m)
      simpa using this
    have hs : s < bm.length := test_bit_false_lt h0
    have hdrop : bm.drop s = bm[s] :: bm.drop (s + 1) := List.drop_eq_getElem_cons hs
    have hget : bm[s] = false := by
      rw [← List.getD_eq_getElem bm true hs]
      exact h0
    have hrec : m ≤ (bm.drop (s + 1)).count false := by
      apply ih (s + 1)
      intro j hj
      have := h (j + 1) (by omega)
      rwa [show s + (j + 1) = s + 1 + j by omega] at this
    rw [hdrop, hget, List.count_cons_self]
    omega

theorem window_count {bm : List Bool} {s n : Nat}
    (hw : ∀ j, j < n → pmm_test_bit bm (s + j) = false) : n ≤ count_clear bm := by
  calc n ≤ (bm.drop s).count false := window_count_aux bm n s hw
  _ ≤ bm.count false := (List.drop_sublist s bm).count_le false

theorem pmm_mark_range_length (n : Nat) : ∀ (bm : List Bool) (s : Nat),
    (pmm_mark_range bm s n).length = bm.length := by
  induction n with
  | zero => intro bm s; rfl
  | succ m ih =>
    intro bm s
    rw [pmm_mark_range, ih]
    simp [pmm_set_bit]

theorem pmm_mark_range_getD (n : Nat) : ∀ (bm : List Bool) (s j : Nat),
    (pmm_mark_range bm s n).getD j true =
      if s ≤ j ∧ j < s + n then true else bm.getD j true := by
  induction n with
  | zero =>
    intro bm s j
    rw [if_neg (by omega)]
    rfl
  | succ m ih =>
    intro bm s j
    rw [pmm_mark_range, ih]
    by_cases hj : j = s
    · subst hj
      rw [if_neg (by omega), if_pos (by omega)]
      exact getD_set_default bm j true
    · by_cases hc : s + 1 ≤ j ∧ j < s + 1 + m
      · rw [if_pos hc, if_pos (by omega)]
      · rw [if_neg hc, if_neg (by omega)]
        exact getD_set_ne bm true true (fun e => hj e.symm)

theorem count_mark_range (n : Nat) : ∀ (bm : List Bool) (s : Nat),
    (∀ j, j < n → pmm_test_bit bm (s + j) = false) →
    count_clear bm = count_clear (pmm_mark_range bm s n) + n := by
  induction n with
  | zero => intro bm s _; rfl
  | succ m ih =>
    intro bm s h
    have h0 : pmm_test_bit bm s = false := by
      have := h 0 (Nat.succ_pos m)
      simpa using this
    have e1 := count_set_true h0
    have hw : ∀ j, j < m → pmm_test_bit (pmm_set_bit bm s) (s + 1 + j) = false := by
      intro j hj
      have hne : s ≠ s + 1 + j := by omega
      rw [pmm_test_bit, pmm_set_bit, getD_set_ne bm true true hne]
      have := h (j + 1) (by omega)
      rwa [show s + (j + 1) = s + 1 + j by omega] at this
    have e2 := ih (pmm_set_bit bm s) (s + 1) hw
    rw [pmm_mark_range]
    omega

/-! ## PMM scan correctness -/

theorem pmm_find_free_spec {bm : List Bool} :
    ∀ {fuel i j : Nat}, pmm_find_free bm fuel i = some j →
      pmm_test_bit bm j = false ∧ j < PMM_TOTAL_PAGES := by
  intro fuel
  induction fuel with
  | zero => intro i j h; simp [pmm_find_free] at h
  | succ f ih =>
    intro i j h
    rw [pmm_find_free] at h
    by_cases hiT : i < PMM_TOTAL_PAGES
    · rw [if_pos hiT] at h
      by_cases hbit : pmm_test_bit bm i = false
      · rw [if_pos hbit] at h
        cases h
        exact ⟨hbit, hiT⟩
      · rw [if_neg hbit] at h
        exact ih h
    · rw [if_neg hiT] at h
      cases h

theorem pmm_scan_correct (bm : List Bool) (n : Nat) (hn : n ≠ 0) :
    ∀ fuel i consec start,
      PMM_TOTAL_PAGES ≤ fuel + i →
      consec < n → consec ≤ i →
      (∀ j, i - consec ≤ j → j < i → pmm_test_bit bm j = false) →
      (consec ≠ 0 → start = i - consec) →
      (i - consec = 0 ∨ pmm_test_bit bm (i - consec - 1) = true) →
      (∀ s, s + n ≤ i → ¬ is_window bm s n) →
      ((∀ s, pmm_scan bm n fuel i consec start = some s →
          is_window bm s n ∧ ∀ t, t < s → ¬ is_window bm t n) ∧
       (pmm_scan bm n fuel i consec start = none → ∀ s, ¬ is_window bm s n)) := by
  intro fuel
  induction fuel with
  | zero =>
    intro i consec start hfi hcn hci hrun hstart hmax hno
    constructor
    · intro s hs
      simp [pmm_scan] at hs
    · intro _ s hw
      refine hno s ?_ hw
      have h1 := hw.1
      omega
  | succ f ih =>
    intro i consec start hfi hcn hci hrun hstart hmax hno
    rw [pmm_scan]
    by_cases hiT : i < PMM_TOTAL_PAGES
    · rw [if_pos hiT]
      by_cases hbit : pmm_test_bit bm i = false
      · rw [if_pos hbit]
        have hstart' : (if consec = 0 then i else start) = i - consec := by
          by_cases hc0 : consec = 0
          · rw [if_pos hc0]
            omega
          · rw [if_neg hc0, hstart hc0]
        by_cases hcnt : consec + 1 = n
        · rw [if_pos hcnt]
          constructor
          · intro s hs
            rw [hstart'] at hs
            have hseq : s = i - consec := (Option.some.inj hs).symm
            subst hseq
            constructor
            · refine ⟨by omega, fun j hj => ?_⟩
              rcases Nat.lt_or_ge j consec with hj2 | hj2
              · exact hrun _ (by omega) (by omega)
              · rw [show i - consec + j = i by omega]
                exact hbit
            · intro t ht hw
              rcases Nat.lt_or_ge (t + n) (i + 1) with h1 | h1
              · exact hno t (by omega) hw
              · have hic : 1 ≤ i - consec := by omega
                have hbit1 : pmm_test_bit bm (i - consec - 1) = true := by
                  rcases hmax with hm | hm
                  · omega
                  · exact hm
                have hj := hw.2 (i - consec - 1 - t) (by omega)
                rw [show t + (i - consec - 1 - t) = i - consec - 1 by omega] at hj
                rw [hj] at hbit1
                simp at hbit1
          · intro hs
            simp at hs
        · rw [if_neg hcnt]
          apply ih (i + 1) (consec + 1) (if consec = 0 then i else start)
          · omega
          · omega
          · omega
          · intro j hj1 hj2
            rcases Nat.lt_or_ge j i with hj3 | hj3
            · exact hrun j (by omega) hj3
            · have hje : j = i := by omega
              subst hje
              exact hbit
          · intro _
            rw [hstart']
            omega
          · rw [show i + 1 - (consec + 1) = i - consec by omega]
            exact hmax
          · intro s hsn hw
            rcases Nat.lt_or_ge (s + n) (i + 1) with h1 | h1
            · exact hno s (by omega) hw
            · have hsn1 : s + n = i + 1 := by omega
              have hge : consec + 2 ≤ n := by omega
              have hic : 1 ≤ i - consec := by omega
              have hbit1 : pmm_test_bit bm (i - consec - 1) = true := by
                rcases hmax with hm | hm
                · omega
                · exact hm
              have hj := hw.2 (i - consec - 1 - s) (by omega)
              rw [show s + (i - consec - 1 - s) = i - consec - 1 by omega] at hj
              rw [hj] at hbit1
              simp at hbit1
      · rw [if_neg hbit]
        have hbit' : pmm_test_bit bm i = true := by
          rwa [Bool.not_eq_false] at hbit
        apply ih (i + 1) 0 start
        · omega
        · omega
        · omega
        · intro j hj1 hj2
          exact absurd hj2 (by omega)
        · intro h0
          exact absurd rfl h0
        · right
          rw [show i + 1 - 0 - 1 = i by omega]
          exact hbit'
        · intro s hsn hw
          rcases Nat.lt_or_ge (s + n) (i + 1) with h1 | h1
          · exact hno s (by omega) hw
          · have hsn1 : s + n = i + 1 := by omega
            have hj := hw.2 (i - s) (by omega)
            rw [show s + (i - s) = i by omega] at hj
            rw [hj] at hbit'
            simp at hbit'
    · rw [if_neg hiT]
      constructor
      · intro s hs
        simp at hs
      · intro _ s hw
        refine hno s ?_ hw
        have h1 := hw.1
        omega

theorem pmm_scan_main (bm : List Bool) (n : Nat) (hn : n ≠ 0) :
    (∀ s, pmm_scan bm n PMM_TOTAL_PAGES 0 0 0 = some s →
        is_window bm s n ∧ ∀ t, t < s → ¬ is_window bm t n) ∧
    (pmm_scan bm n PMM_TOTAL_PAGES 0 0 0 = none → ∀ s, ¬ is_window bm s n) :=
  pmm_scan_correct bm n hn PMM_TOTAL_PAGES 0 0 0 (by omega) (by omega) (by omega)
    (fun j h1 h2 => absurd h2 (by omega))
    (fun h => absurd rfl h)
    (Or.inl rfl)
    (fun s hs _ => absurd hs (by omega))

/-! ## PMM invariants (claims C4 and C6) -/

theorem pmm_inv_alloc_page (st : PmmState)
    (hl : st.bitmap.length = PMM_TOTAL_PAGES) (hc : st.free_count = count_clear st.bitmap) :
    (pmm_alloc_page st).2.bitmap.length = PMM_TOTAL_PAGES ∧
    (pmm_alloc_page st).2.free_count = count_clear (pmm_alloc_page st).2.bitmap := by
  unfold pmm_alloc_page
  by_cases h0 : st.free_count = 0
  · rw [if_pos h0]
    exact ⟨hl, hc⟩
  · rw [if_neg h0]
    cases hf : pmm_find_free st.bitmap PMM_TOTAL_PAGES 0 with
    | none => exact ⟨hl, hc⟩
    | some i =>
      obtain ⟨hbit, hiT⟩ := pmm_find_free_spec hf
      have e := count_set_true hbit
      constructor
      · simpa [pmm_set_bit] using hl
      · dsimp only
        omega

theorem pmm_inv_alloc_pages (st : PmmState) (n : Nat)
    (hl : st.bitmap.length = PMM_TOTAL_PAGES) (hc : st.free_count = count_clear st.bitmap) :
    (pmm_alloc_pages st n).2.bitmap.length = PMM_TOTAL_PAGES ∧
    (pmm_alloc_pages st n).2.free_count = count_clear (pmm_alloc_pages st n).2.bitmap := by
  unfold pmm_alloc_pages
  by_cases h0 : n = 0 ∨ st.free_count < n
  · rw [if_pos h0]
    exact ⟨hl, hc⟩
  · rw [if_neg h0]
    push_neg at h0
    cases hs : pmm_scan st.bitmap n PMM_TOTAL_PAGES 0 0 0 with
    | none => exact ⟨hl, hc⟩
    | some s =>
      have hwin := ((pmm_scan_main st.bitmap n h0.1).1 s hs).1
      have e := count_mark_range n st.bitmap s hwin.2
      constructor
      · rw [pmm_mark_range_length]
        exact hl
      · dsimp only
        omega

theorem pmm_inv_free_page (st : PmmState) (a : Nat)
    (hl : st.bitmap.length = PMM_TOTAL_PAGES) (hc : st.free_count = count_clear st.bitmap) :
    (pmm_free_page st a).bitmap.length = PMM_TOTAL_PAGES ∧
    (pmm_free_page st a).free_count = count_clear (pmm_free_page st a).bitmap := by
  unfold pmm_free_page
  by_cases h0 : a < PMM_START_ADDR ∨ PMM_START_ADDR + PMM_MEMORY_SIZE ≤ a
  · rw [if_pos h0]
    exact ⟨hl, hc⟩
  · rw [if_neg h0]
    dsimp only
    by_cases hb : pmm_test_bit st.bitmap ((a - PMM_START_ADDR) / PMM_PAGE_SIZE) = true
    · rw [if_pos hb]
      have hpage : (a - PMM_START_ADDR) / PMM_PAGE_SIZE < st.bitmap.length := by
        rw [hl]
        simp only [PMM_START_ADDR, PMM_MEMORY_SIZE, PMM_PAGE_SIZE, PMM_TOTAL_PAGES] at *
        omega
      have e := count_set_false hpage hb
      constructor
      · simpa [pmm_clear_bit] using hl
      · dsimp only
        omega
    · rw [if_neg hb]
      exact ⟨hl, hc⟩

theorem pmm_inv_free_pages (n : Nat) : ∀ (st : PmmState) (a : Nat),
    st.bitmap.length = PMM_TOTAL_PAGES → st.free_count = count_clear st.bitmap →
    (pmm_free_pages st a n).bitmap.length = PMM_TOTAL_PAGES ∧
    (pmm_free_pages st a n).free_count = count_clear (pmm_free_pages st a n).bitmap := by
  induction n with
  | zero => intro st a hl hc; exact ⟨hl, hc⟩
  | succ m ih =>
    intro st a hl hc
    rw [pmm_free_pages]
    have h1 := pmm_inv_free_page st a hl hc
    exact ih _ _ h1.1 h1.2

theorem pmm_inv_run (ops : List PmmOp) :
    (pmm_run ops).bitmap.length = PMM_TOTAL_PAGES ∧
    (pmm_run ops).free_count = count_clear (pmm_run ops).bitmap := by
  suffices h : ∀ (ops : List PmmOp) (st : PmmState),
      st.bitmap.length = PMM_TOTAL_PAGES → st.free_count = count_clear st.bitmap →
      (ops.foldl pmm_step st).bitmap.length = PMM_TOTAL_PAGES ∧
      (ops.foldl pmm_step st).free_count = count_clear (ops.foldl pmm_step st).bitmap by
    exact h ops pmm_init (by simp [pmm_init]) (by simp [pmm_init, count_clear])
  intro ops
  induction ops with
  | nil => intro st hl hc; exact ⟨hl, hc⟩
  | cons op rest ih =>
    intro st hl hc
    rw [List.foldl_cons]
    cases op with
    | allocPage =>
      have h1 := pmm_inv_alloc_page st hl hc
      exact ih _ h1.1 h1.2
    | allocPages n =>
      have h1 := pmm_inv_alloc_pages st n hl hc
      exact ih _ h1.1 h1.2
    | freePage a =>
      have h1 := pmm_inv_free_page st a hl hc
      exact ih _ h1.1 h1.2
    | freePages a n =>
      have h1 := pmm_inv_free_pages n st a hl hc
      exact ih _ h1.1 h1.2

theorem pmm_alloc_free_roundtrip (st : PmmState) (a : Nat) (st' : PmmState)
    (h : pmm_alloc_page st = (some a, st')) :
    a % 4096 = 0 ∧ 2097152 ≤ a ∧ a < 2097152 + 14680064 ∧
    (pmm_free_page st' a).free_count = st.free_count := by
  unfold pmm_alloc_page at h
  by_cases h0 : st.free_count = 0
  · rw [if_pos h0] at h
    simp at h
  · rw [if_neg h0] at h
    cases hf : pmm_find_free st.bitmap PMM_TOTAL_PAGES 0 with
    | none =>
      rw [hf] at h
      simp at h
    | some i =>
      rw [hf] at h
      obtain ⟨hbit, hiT⟩ := pmm_find_free_spec hf
      rw [Prod.mk.injEq] at h
      obtain ⟨ha, hst⟩ := h
      have ha' : a = PMM_START_ADDR + i * PMM_PAGE_SIZE := (Option.some.inj ha).symm
      subst ha'
      subst hst
      simp only [PMM_TOTAL_PAGES] at hiT
      refine ⟨by simp only [PMM_START_ADDR, PMM_PAGE_SIZE]; omega,
        by simp only [PMM_START_ADDR, PMM_PAGE_SIZE]; omega,
        by simp only [PMM_START_ADDR, PMM_PAGE_SIZE]; omega, ?_⟩
      unfold pmm_free_page
      rw [if_neg (by simp only [PMM_START_ADDR, PMM_PAGE_SIZE, PMM_MEMORY_SIZE]; omega)]
      dsimp only
      have hpg : (PMM_START_ADDR + i * PMM_PAGE_SIZE - PMM_START_ADDR) / PMM_PAGE_SIZE = i := by
        simp only [PMM_START_ADDR, PMM_PAGE_SIZE]
        omega
      rw [hpg, if_pos (by rw [pmm_test_bit, pmm_set_bit]; exact getD_set_default st.bitmap i true)]
      dsimp only
      omega

/-- Claim C4: after `pmm_init` and any sequence of alloc/free operations,
the number of cleared bitmap bits equals `pmm_free_count`; every non-null
address returned by `pmm_alloc_page` is 4096-byte aligned and lies in
`[0x200000, 0x200000 + 14 MiB)`; and `pmm_free_page` on the address just
returned restores `pmm_free_count` to its value before the allocation. -/
theorem pmm_invariants (ops : List PmmOp) :
    (pmm_run ops).free_count = count_clear (pmm_run ops).bitmap ∧
    (∀ a st', pmm_alloc_page (pmm_run ops) = (some a, st') →
      a % 4096 = 0 ∧ 2097152 ≤ a ∧ a < 2097152 + 14680064 ∧
      (pmm_free_page st' a).free_count = (pmm_run ops).free_count) :=
  ⟨(pmm_inv_run ops).2, fun a st' h => pmm_alloc_free_roundtrip (pmm_run ops) a st' h⟩

/-- Witness for `pmm_invariants`: the first allocation after `pmm_init`
returns 0x200000, and freeing it restores the free count. -/
theorem pmm_invariants_witness :
    (2097152 : Nat) % 4096 = 0 ∧ 2097152 ≤ 2097152 ∧ 2097152 < 2097152 + 14680064 ∧
    (pmm_free_page ⟨(List.replicate 3584 false).set 0 true, 3583, 3584⟩ 2097152).free_count
      = (pmm_run []).free_count :=
  (pmm_invariants []).2 2097152 ⟨(List.replicate 3584 false).set 0 true, 3583, 3584⟩ rfl

/-- Claim C6: `pmm_alloc_pages 0` returns null with the state untouched; when
no run of `n` contiguous free frames exists the call returns null and leaves
the bitmap and free count completely unchanged; when such a run exists (for a
state whose free count is consistent with the bitmap), the call returns the
base address of the first such run and marks exactly those `n` frames used,
leaving every other frame untouched. -/
theorem pmm_alloc_pages_spec (st : PmmState)
    (hfc : st.free_count = count_clear st.bitmap) :
    pmm_alloc_pages st 0 = (none, st) ∧
    (∀ n, (∀ s, ¬ is_window st.bitmap s n) → pmm_alloc_pages st n = (none, st)) ∧
    (∀ n s, n ≠ 0 → is_window st.bitmap s n → (∀ t, t < s → ¬ is_window st.bitmap t n) →
      pmm_alloc_pages st n =
        (some (2097152 + s * 4096),
         { bitmap := pmm_mark_range st.bitmap s n, free_count := st.free_count - n,
           total_pages := st.total_pages }) ∧
      (∀ j, s ≤ j → j < s + n → (pmm_mark_range st.bitmap s n).getD j true = true) ∧
      (∀ j, j < s ∨ s + n ≤ j →
        (pmm_mark_range st.bitmap s n).getD j true = st.bitmap.getD j true)) := by
  refine ⟨?_, ?_, ?_⟩
  · unfold pmm_alloc_pages
    rw [if_pos (Or.inl rfl)]
  · intro n hno
    unfold pmm_alloc_pages
    by_cases h0 : n = 0 ∨ st.free_count < n
    · rw [if_pos h0]
    · rw [if_neg h0]
      push_neg at h0
      cases hs : pmm_scan st.bitmap n PMM_TOTAL_PAGES 0 0 0 with
      | none => rfl
      | some s =>
        exact absurd ((pmm_scan_main st.bitmap n h0.1).1 s hs).1 (hno s)
  · intro n s hn hw hmin
    have hcnt : n ≤ count_clear st.bitmap := window_count hw.2
    have hguard : ¬ (n = 0 ∨ st.free_count < n) := by
      rw [hfc]
      rintro (h | h)
      · exact hn h
      · omega
    have hscan : pmm_scan st.bitmap n PMM_TOTAL_PAGES 0 0 0 = some s := by
      cases hs : pmm_scan st.bitmap n PMM_TOTAL_PAGES 0 0 0 with
      | none => exact absurd hw ((pmm_scan_main st.bitmap n hn).2 hs s)
      | some t =>
        obtain ⟨hwt, hmint⟩ := (pmm_scan_main st.bitmap n hn).1 t hs
        have hts : t = s := by
          rcases Nat.lt_trichotomy t s with h | h | h
          · exact absurd hwt (hmin t h)
          · exact h
          · exact absurd hw (hmint s h)
        rw [hts]
    refine ⟨?_, ?_, ?_⟩
    · unfold pmm_alloc_pages
      rw [if_neg hguard, hscan]
      simp only [PMM_START_ADDR, PMM_PAGE_SIZE]
    · intro j h1 h2
      rw [pmm_mark_range_getD, if_pos ⟨h1, h2⟩]
    · intro j hj
      rw [pmm_mark_range_getD, if_neg (by omega)]

/-- Witness for `pmm_alloc_pages_spec` on a 3-frame bitmap whose first free
run of length 2 starts at frame 1. -/
theorem pmm_alloc_pages_spec_witness :
    pmm_alloc_pages ⟨[true, false, false], 2, 3⟩ 2 =
      (some (2097152 + 1 * 4096),
       { bitmap := pmm_mark_range [true, false, false] 1 2, free_count := 2 - 2,
         total_pages := 3 }) :=
  ((pmm_alloc_pages_spec ⟨[true, false, false], 2, 3⟩ (by decide)).2.2 2 1
    (by decide) (by decide) (by decide)).1

/-- Claim C5 (amended): at every reachable state, the used-byte counter
reported by `heap_stats` equals `HEADER_SIZE` (the initial free block's
header, counted by `heap_init`) plus the sum of `header + payload` over the
non-free blocks, as a 64-bit (`size_t`) value. -/
theorem heap_used_counter_eq (start size : Nat) (ops : List HeapOp) :
    (heap_stats (heap_run start size ops)).2.1 =
      (HEADER_SIZE + used_sum (heap_run start size ops).blocks) % U64 := by
  suffices h : ∀ (ops : List HeapOp) (st : HeapState),
      st.heapUsed = (HEADER_SIZE + used_sum st.blocks) % U64 →
      (ops.foldl heap_step st).heapUsed =
        (HEADER_SIZE + used_sum (ops.foldl heap_step st).blocks) % U64 by
    exact h ops (heap_init start size) (by simp [heap_init, used_sum, HEADER_SIZE, U64])
  intro ops
  induction ops with
  | nil => intro st hst; exact hst
  | cons op rest ih =>
    intro st hst
    rw [List.foldl_cons]
    apply ih
    cases op with
    | malloc s => exact used_inv_kmalloc st s hst
    | calloc c s => exact used_inv_kmalloc st ((c * s) % U64) hst
    | free p => exact used_inv_kfree st p hst

end MiniOS
